import Mathlib

/-!
# ascii-art: banner font loader, input sanitiser and text renderer

A shallow embedding of `main.go`.

* A Go `string` is a sequence of bytes, modelled as `List Nat` (byte values
  are the naturals below 256).  `len`, indexing and slicing are the list
  operations; `for range` over a string decodes UTF-8 (`rangeRunes`).
* A `rune` (`int32`) and an `int` index are modelled as `Int`; no operation of
  the program can overflow them.
* A run-time panic (index out of range) is `none` in an `Option` result.
* `fmt.Println` calls are modelled by the list of lines printed, in order.
* The `for` loop of `loadBanner` has no static bound, so it is embedded with
  fuel: `none` means that the fuel ran out before the loop left.
* The file reading of `loadBanner` (lines 20 to 34) is outside the model: the
  embedding starts from the scanned `lines`.
-/

namespace AsciiArt

/-! ## Go strings -/

/-- A Go string: its bytes, in order. -/
abbrev GoString := List Nat

/-- The glyph list `[][]string` of the program. -/
abbrev Glyphs := List (List GoString)

/-- Bytes (UTF-8) of a string literal, to write Go string constants. -/
def str (s : String) : GoString :=
  s.data.flatMap (fun c => (String.utf8EncodeChar c).map UInt8.toNat)

/-- Constant `charHeight` of `main.go`. -/
def charHeight : Nat := 8

/-- Constant `startAscii` of `main.go`. -/
def startAscii : Nat := 32

/-- Constant `printableCount` of `main.go`. -/
def printableCount : Nat := 95

/-- The rune U+FFFD that Go yields for a byte that starts no valid UTF-8 sequence. -/
def runeError : Int := 65533

/-- One step of UTF-8 decoding, as Go does it for `for range` over a string:
the rune at the head of `p` and the number of bytes it takes.  An invalid or
incomplete sequence gives `runeError` with width 1. -/
def decodeRune (p : GoString) : Int × Nat :=
  match p with
  | [] => (runeError, 0)
  | p0 :: t =>
    if p0 < 0x80 then ((p0 : Int), 1)
    else if p0 < 0xC2 ∨ 0xF4 < p0 then (runeError, 1)
    else
      let sz := if p0 < 0xE0 then 2 else if p0 < 0xF0 then 3 else 4
      let lo := if p0 = 0xE0 then 0xA0 else if p0 = 0xF0 then 0x90 else 0x80
      let hi := if p0 = 0xED then 0x9F else if p0 = 0xF4 then 0x8F else 0xBF
      match t with
      | [] => (runeError, 1)
      | b1 :: t1 =>
        if t.length + 1 < sz then (runeError, 1)
        else if b1 < lo ∨ hi < b1 then (runeError, 1)
        else if sz ≤ 2 then (((p0 % 32) * 64 + b1 % 64 : Nat), 2)
        else
          match t1 with
          | [] => (runeError, 1)
          | b2 :: t2 =>
            if b2 < 0x80 ∨ 0xBF < b2 then (runeError, 1)
            else if sz ≤ 3 then (((p0 % 16) * 4096 + (b1 % 64) * 64 + b2 % 64 : Nat), 3)
            else
              match t2 with
              | [] => (runeError, 1)
              | b3 :: _ =>
                if b3 < 0x80 ∨ 0xBF < b3 then (runeError, 1)
                else (((p0 % 8) * 262144 + (b1 % 64) * 4096 + (b2 % 64) * 64 + b3 % 64 : Nat), 4)

/-- Runes of a string from a position on; `skip` bytes still belong to the
rune decoded last. -/
def rangeRunesAux : Nat → GoString → List Int
  | _, [] => []
  | skip + 1, _ :: rest => rangeRunesAux skip rest
  | 0, b :: rest => (decodeRune (b :: rest)).1 :: rangeRunesAux ((decodeRune (b :: rest)).2 - 1) rest

/-- The runes that `for _, r := range line` visits, in order. -/
def rangeRunes (line : GoString) : List Int :=
  rangeRunesAux 0 line

/-- Go `strings.Join(elems, sep)`. -/
def stringsJoin (elems : List GoString) (sep : GoString) : GoString :=
  match elems with
  | [] => []
  | [e] => e
  | e :: rest => rest.foldl (fun b s => b ++ sep ++ s) e

/-- Scan of `strings.ReplaceAll` for a non-empty `old`: occurrences are found
from left to right and do not overlap; `skip` bytes still belong to the
occurrence replaced last. -/
def stringsReplaceAllAux (old new : GoString) : Nat → GoString → GoString
  | _, [] => []
  | skip + 1, _ :: rest => stringsReplaceAllAux old new skip rest
  | 0, b :: rest =>
    if old.isPrefixOf (b :: rest) then new ++ stringsReplaceAllAux old new (old.length - 1) rest
    else b :: stringsReplaceAllAux old new 0 rest

/-- Go `strings.ReplaceAll(s, old, new)` for a non-empty `old`. -/
def stringsReplaceAll (s old new : GoString) : GoString :=
  stringsReplaceAllAux old new 0 s

/-- Scan of `strings.Split` for a non-empty `sep`: `cur` holds the bytes of
the piece being read, `skip` bytes still belong to the separator found last. -/
def stringsSplitAux (sep : GoString) : Nat → GoString → GoString → List GoString
  | _, cur, [] => [cur]
  | skip + 1, cur, _ :: rest => stringsSplitAux sep skip cur rest
  | 0, cur, b :: rest =>
    if sep.isPrefixOf (b :: rest) then cur :: stringsSplitAux sep (sep.length - 1) [] rest
    else stringsSplitAux sep 0 (cur ++ [b]) rest

/-- Go `strings.Split(s, sep)` for a non-empty `sep`. -/
def stringsSplit (s sep : GoString) : List GoString :=
  stringsSplitAux sep 0 [] s

/-! ## loadBanner -/

/-- The two errors the parsing loop of `loadBanner` can return. -/
inductive BannerError where
  /-- Text "Banner file malformed, unexpected end while reading glyph". -/
  | unexpectedEnd : BannerError
  /-- Text "Banner file malformed: found %d glyphs, expected %d" with the found count. -/
  | foundFewer (found : Nat) : BannerError
  deriving DecidableEq, Repr

/-- Variables of the parsing loop: the line position `i` and the list `glyphs`. -/
structure LoopState where
  i : Nat
  glyphs : Glyphs
  deriving DecidableEq, Repr

/-- Result of one pass through the loop body. -/
inductive BodyResult where
  /-- The body ran to its end (or to `continue`) with the new variables. -/
  | next (st : LoopState) : BodyResult
  /-- The body returned an error from `loadBanner`. -/
  | fail (e : BannerError) : BodyResult
  deriving DecidableEq, Repr

/-- Body of the loop at lines 38 to 57, entered when the loop condition holds.
The local `glyph` is filled and then dropped: the source neither appends it to
`glyphs` nor moves `i` past its rows. -/
def loopBody (lines : List GoString) (st : LoopState) : BodyResult :=
  if lines.getD st.i [] = [] then
    BodyResult.next { st with i := st.i + 1 }
  else if st.i + charHeight > lines.length then
    BodyResult.fail BannerError.unexpectedEnd
  else
    let _glyph : List GoString := (List.range charHeight).map (fun h => lines.getD (st.i + h) [])
    if st.i < lines.length ∧ lines.getD st.i [] = [] then
      BodyResult.next { st with i := st.i + 1 }
    else
      BodyResult.next st

/-- The loop `for len(glyphs) < printableCount && i < len(lines)` with fuel:
`none` when the fuel is used up, else the variables at loop exit or the error
returned from inside. -/
def parseLoop (lines : List GoString) : Nat → LoopState → Option (Except BannerError LoopState)
  | 0, _ => none
  | fuel + 1, st =>
    if st.glyphs.length < printableCount ∧ st.i < lines.length then
      match loopBody lines st with
      | BodyResult.fail e => some (Except.error e)
      | BodyResult.next st1 => parseLoop lines fuel st1
    else some (Except.ok st)

/-- Lines 35 to 61 of `loadBanner` on the scanned lines, with fuel for the loop. -/
def loadBanner (fuel : Nat) (lines : List GoString) : Option (Except BannerError Glyphs) :=
  match parseLoop lines fuel { i := 0, glyphs := [] } with
  | none => none
  | some (Except.error e) => some (Except.error e)
  | some (Except.ok st) =>
    if st.glyphs.length < printableCount then
      some (Except.error (BannerError.foundFewer st.glyphs.length))
    else some (Except.ok st.glyphs)

/-! ## sanitizeInput -/

/-- Function `sanitizeInput` of `main.go`. -/
def sanitizeInput (args : List GoString) : GoString :=
  let row := stringsJoin args [32]
  let row :=
    if row.length ≥ 2 then
      let first := row.getD 0 0
      let last := row.getD (row.length - 1) 0
      -- 123 is the opening brace, 125 the closing brace, 34 the double quote, 39 the single quote
      if (first = 123 ∧ last = 125) ∨ (first = 34 ∧ last = 34) ∨ (first = 39 ∧ last = 39) then
        (row.take (row.length - 1)).drop 1
      else row
    else row
  -- 92 110 is backslash n, 10 is the newline
  stringsReplaceAll row [92, 110] [10]

/-! ## Rendering -/

/-- Function `glyphForRune` of `main.go`; `none` is an index out of range. -/
def glyphForRune (glyphs : Glyphs) (r : Int) : Option (List GoString) :=
  if r < (startAscii : Int) ∧ r ≥ (startAscii : Int) + (printableCount : Int) then
    glyphs[0]?
  else
    let idx : Int := r - (startAscii : Int)
    if idx < 0 then none else glyphs[idx.toNat]?

/-- Inner loop of `renderLine`: `rows[h].WriteString(g[h])` for `h` from 0 to
`charHeight - 1`; `none` when `g` has no row `h`. -/
def writeGlyph (rows : List GoString) (g : List GoString) : Option (List GoString) :=
  (List.range charHeight).foldlM
    (fun acc h => (g[h]?).map (fun s => acc.set h (acc.getD h [] ++ s))) rows

/-- Function `renderLine` of `main.go`: the lines it prints, or `none` when it panics. -/
def renderLine (glyphs : Glyphs) (line : GoString) : Option (List GoString) :=
  (rangeRunes line).foldlM
    (fun rows r => (glyphForRune glyphs r).bind (fun g => writeGlyph rows g))
    (List.replicate charHeight [])

/-- Lines 145 to 166 of `main`: the lines printed for the sanitized `input`,
or `none` when rendering panics. -/
def renderInput (glyphs : Glyphs) (input : GoString) : Option (List GoString) :=
  if input = [] then some []
  else
    (stringsSplit input [10]).foldlM
      (fun out ln =>
        if ln = [] then some (out ++ [[]])
        else (renderLine glyphs ln).map (fun rows => out ++ rows ++ [[], []]))
      []

/-- Lines 142 to 166 of `main`: sanitize the text arguments and render. -/
def mainOutput (glyphs : Glyphs) (args : List GoString) : Option (List GoString) :=
  renderInput glyphs (sanitizeInput args)

/-! ## Specification-side definitions -/

/-- Every two-byte sequence backslash, `n` replaced by one newline byte,
reading from the left (the wording of the specification). -/
def unescapeNewlines : GoString → GoString
  | 92 :: 110 :: rest => 10 :: unescapeNewlines rest
  | b :: rest => b :: unescapeNewlines rest
  | [] => []

/-- A string is wrapped when its length is 2 or more and its first and last
bytes form one of the pairs brace-brace (123, 125), double quotes (34, 34) or
single quotes (39, 39) (the wording of the specification). -/
def isWrapped (row : GoString) : Prop :=
  2 ≤ row.length ∧
    ((row.head? = some 123 ∧ row.getLast? = some 125) ∨
      (row.head? = some 34 ∧ row.getLast? = some 34) ∨
      (row.head? = some 39 ∧ row.getLast? = some 39))

instance isWrapped.decidable (row : GoString) : Decidable (isWrapped row) := by
  unfold isWrapped
  infer_instance

/-- Row `h` of a rendered line in the words of the specification: the
concatenation, in character order, of row `h` of `glyphs[c - 32]` over the
bytes `c` of the line. -/
def composedRow (glyphs : Glyphs) (line : GoString) (h : Nat) : GoString :=
  (line.map (fun c => (glyphs.getD (c - 32) []).getD h [])).flatten

/-- Output unit of one logical line in the words of the specification: one
empty line for an empty logical line, else the 8 composed rows followed by two
empty lines. -/
def lineUnit (glyphs : Glyphs) (ln : GoString) : List GoString :=
  if ln = [] then [[]]
  else (List.range 8).map (composedRow glyphs ln) ++ [[], []]

/-- Number of empty lines at the start of a font source: the position of its
first non-empty line, or its length when every line is empty. -/
def leadingBlank (lines : List GoString) : Nat :=
  (lines.takeWhile (fun l => decide (l = []))).length

/-- A loop result with the line position moved by `n` (glyphs and errors kept). -/
def shiftResult (n : Nat) : Except BannerError LoopState → Except BannerError LoopState
  | Except.ok st => Except.ok { st with i := n + st.i }
  | Except.error e => Except.error e

/-! ## Sample inputs -/

/-- A well-formed font source: 95 blocks of 8 non-empty lines (block `c` holds
the byte `32 + c` on each line), one empty line between consecutive blocks. -/
def sampleFont : List GoString :=
  [[]].intercalate ((List.range 95).map (fun c => List.replicate 8 [c + 32]))

/-- A font source of one complete block of 8 non-empty lines. -/
def oneBlockFont : List GoString :=
  List.replicate 8 (str "##")

/-- A font source of one complete block, an empty line and a last block of 3 lines. -/
def cutFont : List GoString :=
  List.replicate 8 (str "##") ++ [[]] ++ List.replicate 3 (str "##")

/-- A glyph list of 95 entries of 8 rows: row `h` of entry `i` holds the
byte `32 + i` and the digit `h`. -/
def sampleGlyphs : Glyphs :=
  (List.range 95).map (fun i => (List.range 8).map (fun h => [i + 32, h + 48]))

end AsciiArt

namespace AsciiArt

/-! ## The parsing loop of loadBanner -/

/-- At a non-empty line with `charHeight` lines left, the loop body changes
neither `i` nor `glyphs`. -/
theorem loopBody_fixed (lines : List GoString) (st : LoopState)
    (hne : lines.getD st.i [] ≠ []) (hroom : st.i + charHeight ≤ lines.length) :
    loopBody lines st = BodyResult.next st := by
  unfold loopBody
  rw [if_neg hne, if_neg (by omega)]
  exact if_neg (fun h => hne h.2)

/-- From such a state the loop never leaves, whatever the fuel. -/
theorem parseLoop_stuck (lines : List GoString) (st : LoopState)
    (hcount : st.glyphs.length < printableCount)
    (hne : lines.getD st.i [] ≠ []) (hroom : st.i + charHeight ≤ lines.length) :
    ∀ fuel, parseLoop lines fuel st = none := by
  intro fuel
  induction fuel with
  | zero => rfl
  | succ n ih =>
    have hi : st.i < lines.length := by
      have : 0 < charHeight := by decide
      omega
    simp only [parseLoop, if_pos (And.intro hcount hi), loopBody_fixed lines st hne hroom]
    exact ih

/-- A font source that starts with a non-empty line and has `charHeight`
lines or more makes `loadBanner` run out of any fuel. -/
theorem loadBanner_stuck (lines : List GoString)
    (hne : lines.getD 0 [] ≠ []) (hroom : charHeight ≤ lines.length) :
    ∀ fuel, loadBanner fuel lines = none := by
  intro fuel
  have h := parseLoop_stuck lines { i := 0, glyphs := [] } (by decide) hne
    (by simpa using hroom) fuel
  simp [loadBanner, h]

/-- C1 (evaluation at a well-formed font): on the 95 block font `sampleFont`
the parsing loop of `loadBanner` returns nothing, neither a glyph list nor an
error, for any amount of fuel: it never leaves its first iteration state. -/
theorem loadBanner_sampleFont_never_returns :
    sampleFont.length = 95 * 8 + 94 ∧ ∀ fuel, loadBanner fuel sampleFont = none := by
  have hlen : sampleFont.length = 95 * 8 + 94 := by decide!
  have hhead : sampleFont.getD 0 [] = [32] := by decide!
  refine ⟨hlen, loadBanner_stuck sampleFont ?_ ?_⟩
  · rw [hhead]; decide
  · rw [hlen]; decide

/-- C8 (evaluation at one complete block): on the 8 line font `oneBlockFont`
the parsing loop of `loadBanner` returns no error (and no glyph list) for any
amount of fuel, where the claim asks for the error reporting 1 found glyph. -/
theorem loadBanner_oneBlockFont_never_returns :
    oneBlockFont.length = 8 ∧ (∀ ln ∈ oneBlockFont, ln ≠ []) ∧
      ∀ fuel, loadBanner fuel oneBlockFont = none ∧
        loadBanner fuel oneBlockFont ≠ some (Except.error (BannerError.foundFewer 1)) := by
  refine ⟨by decide, by decide, fun fuel => ?_⟩
  have h := loadBanner_stuck oneBlockFont (by decide) (by decide) fuel
  exact ⟨h, by rw [h]; exact fun hc => Option.noConfusion hc⟩

/-- C9 (evaluation at one complete block followed by a cut block): on
`cutFont`, one block of 8 lines, an empty line and 3 more lines, the parsing
loop of `loadBanner` returns no error for any amount of fuel, where the claim
asks for the unexpected-end error. -/
theorem loadBanner_cutFont_never_returns :
    cutFont = List.replicate 8 [35, 35] ++ [[]] ++ List.replicate 3 [35, 35] ∧
      ∀ fuel, loadBanner fuel cutFont = none ∧
        loadBanner fuel cutFont ≠ some (Except.error BannerError.unexpectedEnd) := by
  refine ⟨by decide, fun fuel => ?_⟩
  have h := loadBanner_stuck cutFont (by decide) (by decide) fuel
  exact ⟨h, by rw [h]; exact fun hc => Option.noConfusion hc⟩

/-- C10 (termination fails): it is not the case that for every sequence of
font-source lines some amount of fuel lets the parsing loop of `loadBanner`
return; eight lines holding one byte each are a sequence on which it never does. -/
theorem loadBanner_not_terminating :
    ¬ ∀ lines : List GoString, ∃ fuel, (loadBanner fuel lines).isSome = true := by
  intro hall
  obtain ⟨fuel, hfuel⟩ := hall (List.replicate 8 [124])
  have h := loadBanner_stuck (List.replicate 8 [124]) (by decide) (by decide) fuel
  rw [h] at hfuel
  exact Bool.noConfusion hfuel

/-! ## sanitizeInput -/

theorem stringsReplaceAll_eq_unescape (s : GoString) :
    stringsReplaceAll s [92, 110] [10] = unescapeNewlines s := by
  unfold stringsReplaceAll
  induction s using unescapeNewlines.induct with
  | case1 rest ih =>
    simp [stringsReplaceAllAux, unescapeNewlines, ih]
  | case2 b rest hnot ih =>
    rw [unescapeNewlines]
    · simp only [stringsReplaceAllAux]
      rw [if_neg, ih]
      intro hp
      cases rest with
      | nil => simp [List.isPrefixOf] at hp
      | cons c rest2 =>
        simp [List.isPrefixOf] at hp
        exact hnot rest2 hp.1.symm (by rw [hp.2])
    · exact hnot
  | case3 => rfl

theorem stringsJoin_eq_intercalate (elems : List GoString) (sep : GoString) :
    stringsJoin elems sep = sep.intercalate elems := by
  have hfold : ∀ (rest : List GoString) (e : GoString),
      rest.foldl (fun b s => b ++ sep ++ s) e = e ++ (rest.map (fun s => sep ++ s)).flatten := by
    intro rest
    induction rest with
    | nil => intro e; simp
    | cons x xs ih => intro e; rw [List.foldl_cons, ih]; simp [List.append_assoc]
  have hinter : ∀ (rest : List GoString) (e : GoString),
      sep.intercalate (e :: rest) = e ++ (rest.map (fun s => sep ++ s)).flatten := by
    intro rest
    induction rest with
    | nil => intro e; simp [List.intercalate]
    | cons x xs ih =>
      intro e
      have := ih x
      simp [List.intercalate, List.intersperse] at this ⊢
      rw [this]
  cases elems with
  | nil => simp [stringsJoin, List.intercalate]
  | cons e rest =>
    cases rest with
    | nil => simp [stringsJoin, List.intercalate]
    | cons x xs => simp only [stringsJoin]; rw [hfold, hinter]

theorem getD_zero_eq_iff (row : GoString) (x : Nat) (h : row ≠ []) :
    row.getD 0 0 = x ↔ row.head? = some x := by
  cases row with
  | nil => exact absurd rfl h
  | cons a t => simp

theorem getD_last_eq_iff (row : GoString) (x : Nat) (h : row ≠ []) :
    row.getD (row.length - 1) 0 = x ↔ row.getLast? = some x := by
  rw [List.getLast?_eq_getElem?]
  have hlt : row.length - 1 < row.length := by
    have := List.length_pos.mpr h
    omega
  simp [List.getD_eq_getElem?_getD, List.getElem?_eq_getElem hlt]

/-- The source of `sanitizeInput` in the words of the specification: join,
strip one outer pair when wrapped, unescape. -/
theorem sanitizeInput_eq (args : List GoString) :
    sanitizeInput args =
      unescapeNewlines
        (if isWrapped ([32].intercalate args) then
          (([32].intercalate args).take (([32].intercalate args).length - 1)).drop 1
        else [32].intercalate args) := by
  unfold sanitizeInput
  rw [stringsReplaceAll_eq_unescape, stringsJoin_eq_intercalate]
  congr 1
  generalize [32].intercalate args = row
  by_cases hlen : row.length ≥ 2
  · have hne : row ≠ [] := by
      intro h
      rw [h] at hlen
      simp at hlen
    simp only [if_pos hlen, isWrapped, getD_zero_eq_iff row _ hne, getD_last_eq_iff row _ hne]
    have h2 : 2 ≤ row.length := hlen
    simp only [h2, true_and]
  · rw [if_neg hlen, if_neg]
    intro hw
    exact hlen hw.1

/-- A string without the sequence backslash, `n` is left as it is. -/
theorem unescapeNewlines_of_no_escape (s : GoString) (h : ¬ [92, 110] <:+: s) :
    unescapeNewlines s = s := by
  induction s using unescapeNewlines.induct with
  | case1 rest _ =>
    exact absurd ⟨[], rest, rfl⟩ h
  | case2 b rest hnot ih =>
    rw [unescapeNewlines]
    · rw [ih]
      intro hin
      exact h (List.IsInfix.trans hin (List.infix_cons (List.infix_refl _)))
    · exact hnot
  | case3 => rfl

/-- An escape sequence after a prefix without one: the prefix is kept, the
sequence becomes a newline, the rest is unescaped. -/
theorem unescapeNewlines_append_escape (a b : GoString) (h : ¬ [92, 110] <:+: a) :
    unescapeNewlines (a ++ 92 :: 110 :: b) = a ++ 10 :: unescapeNewlines b := by
  induction a with
  | nil => simp [unescapeNewlines]
  | cons x t ih =>
    have ht : ¬ [92, 110] <:+: t := fun hin =>
      h (List.IsInfix.trans hin (List.infix_cons (List.infix_refl _)))
    rw [List.cons_append, unescapeNewlines]
    · rw [ih ht, List.cons_append]
    · intro rest hx hrest
      cases t with
      | nil =>
        simp at hrest
      | cons y t2 =>
        simp at hrest
        apply h
        refine ⟨[], t2, ?_⟩
        rw [hx, hrest.1]
        rfl

/-- Splitting on the newline: bytes other than the newline go to the current piece. -/
theorem stringsSplitAux_append (a rest cur : GoString) (h : 10 ∉ a) :
    stringsSplitAux [10] 0 cur (a ++ rest) = stringsSplitAux [10] 0 (cur ++ a) rest := by
  induction a generalizing cur with
  | nil => simp
  | cons x t ih =>
    have hx : x ≠ 10 := fun hc => h (by simp [hc])
    have ht : 10 ∉ t := fun hc => h (by simp [hc])
    rw [List.cons_append, stringsSplitAux, if_neg, ih _ ht]
    · simp
    · simp [List.isPrefixOf]
      exact fun hc => hx hc.symm

/-- Splitting on the newline: a newline closes the current piece. -/
theorem stringsSplitAux_newline (rest cur : GoString) :
    stringsSplitAux [10] 0 cur (10 :: rest) = cur :: stringsSplitAux [10] 0 [] rest := by
  rw [stringsSplitAux, if_pos]
  · rfl
  · simp [List.isPrefixOf]

/-- C5: for every string `m`, `sanitizeInput` on the single token `m` put in
braces, in double quotes or in single quotes returns `m` with every sequence
backslash, `n` replaced by a newline: one outer pair is removed and no more.
So the token "hello" in braces gives "hello", the token "hi" in double quotes
gives "hi", and "a" in two pairs of braces gives "a" in one pair. -/
theorem sanitizeInput_strips_one_pair (m : GoString) :
    sanitizeInput [123 :: (m ++ [125])] = unescapeNewlines m ∧
      sanitizeInput [34 :: (m ++ [34])] = unescapeNewlines m ∧
      sanitizeInput [39 :: (m ++ [39])] = unescapeNewlines m ∧
      sanitizeInput [str "\x7bhello\x7d"] = str "hello" ∧
      sanitizeInput [str "\"hi\""] = str "hi" ∧
      sanitizeInput [str "\x7b\x7ba\x7d\x7d"] = str "\x7ba\x7d" := by
  have key : ∀ o c : Nat, isWrapped (o :: (m ++ [c])) →
      sanitizeInput [o :: (m ++ [c])] = unescapeNewlines m := by
    intro o c hw
    rw [sanitizeInput_eq]
    have hj : [32].intercalate [o :: (m ++ [c])] = o :: (m ++ [c]) := by
      simp [List.intercalate]
    rw [hj, if_pos hw]
    congr 1
    simp [List.take_append_eq_append_take]
  refine ⟨key 123 125 ?_, key 34 34 ?_, key 39 39 ?_, by decide, by decide, by decide⟩
  · refine ⟨by simp, Or.inl ⟨by simp, ?_⟩⟩
    exact List.getLast?_concat (_ :: m)
  · refine ⟨by simp, Or.inr (Or.inl ⟨by simp, ?_⟩)⟩
    exact List.getLast?_concat (_ :: m)
  · refine ⟨by simp, Or.inr (Or.inr ⟨by simp, ?_⟩)⟩
    exact List.getLast?_concat (_ :: m)

/-- C6: when the tokens joined with single spaces are not wrapped (length
below 2, or first and last byte not a delimiter pair), `sanitizeInput` returns
that joined string with every sequence backslash, `n` replaced by a newline and
nothing else changed; without such a sequence the joined string comes back as
it is.  So the tokens "no", "delims" give "no delims" and the one-byte token
holding a double quote is returned unchanged. -/
theorem sanitizeInput_unwrapped (tokens : List GoString)
    (h : ¬ isWrapped ([32].intercalate tokens)) :
    sanitizeInput tokens = unescapeNewlines ([32].intercalate tokens) ∧
      (¬ [92, 110] <:+: [32].intercalate tokens →
        sanitizeInput tokens = [32].intercalate tokens) ∧
      sanitizeInput [str "no", str "delims"] = str "no delims" ∧
      sanitizeInput [str "\""] = str "\"" := by
  have hmain : sanitizeInput tokens = unescapeNewlines ([32].intercalate tokens) := by
    rw [sanitizeInput_eq, if_neg h]
  refine ⟨hmain, fun hno => ?_, by decide, by decide⟩
  rw [hmain, unescapeNewlines_of_no_escape _ hno]

/-- Witness of C6 at the tokens " a", backslash n, "b " (leading and trailing
spaces kept, the escape replaced). -/
theorem sanitizeInput_unwrapped_witness :
    ¬ isWrapped ([32].intercalate [str " a", str "\\n", str "b "]) ∧
      sanitizeInput [str " a", str "\\n", str "b "] = str " a \n b " := by
  have hw : ¬ isWrapped ([32].intercalate [str " a", str "\\n", str "b "]) := by decide
  exact ⟨hw, (sanitizeInput_unwrapped [str " a", str "\\n", str "b "] hw).1.trans (by decide)⟩

/-- C7: for strings `a` and `b` without newline and without the sequence
backslash, `n`, if the token `a`, backslash, `n`, `b` is not wrapped then
splitting its sanitized form on the newline gives exactly the two lines `a`
and `b`. -/
theorem sanitizeInput_escape_two_lines (a b : GoString)
    (ha : 10 ∉ a) (hb : 10 ∉ b)
    (hea : ¬ [92, 110] <:+: a) (heb : ¬ [92, 110] <:+: b)
    (hw : ¬ isWrapped (a ++ [92, 110] ++ b)) :
    stringsSplit (sanitizeInput [a ++ [92, 110] ++ b]) [10] = [a, b] := by
  have hj : [32].intercalate [a ++ [92, 110] ++ b] = a ++ [92, 110] ++ b := by
    simp [List.intercalate]
  have hs : sanitizeInput [a ++ [92, 110] ++ b] = a ++ 10 :: b := by
    rw [sanitizeInput_eq, hj, if_neg hw]
    have := unescapeNewlines_append_escape a b hea
    rw [unescapeNewlines_of_no_escape b heb] at this
    simpa using this
  rw [hs, stringsSplit, stringsSplitAux_append a _ [] ha, stringsSplitAux_newline]
  have hlast := stringsSplitAux_append b [] [] hb
  rw [List.append_nil] at hlast
  rw [hlast]
  simp [stringsSplitAux]

/-- Witness of C7: the four-byte token `a`, backslash, `n`, `b` gives the
lines "a" and "b". -/
theorem sanitizeInput_escape_two_lines_witness :
    stringsSplit (sanitizeInput [str "a\\nb"]) (str "\n") = [str "a", str "b"] :=
  sanitizeInput_escape_two_lines (str "a") (str "b") (by decide) (by decide) (by decide)
    (by decide) (by decide)

/-! ## Rendering -/

/-- Bytes below 128 are decoded one by one to themselves. -/
theorem rangeRunes_ascii (line : GoString) (h : ∀ c ∈ line, c < 128) :
    rangeRunes line = line.map (fun (c : Nat) => (c : Int)) := by
  unfold rangeRunes
  induction line with
  | nil => rfl
  | cons b rest ih =>
    have hb : b < 128 := h b (by simp)
    have hd : decodeRune (b :: rest) = ((b : Int), 1) := by
      simp [decodeRune, hb]
    rw [rangeRunesAux, hd]
    simp only [List.map_cons, Nat.sub_self]
    rw [ih (fun c hc => h c (by simp [hc]))]

/-- In range, `glyphForRune` is the lookup at `c - 32`. -/
theorem glyphForRune_in_range (glyphs : Glyphs) (c : Nat) (hlo : 32 ≤ c) :
    glyphForRune glyphs (c : Int) = glyphs[c - 32]? := by
  unfold glyphForRune startAscii printableCount
  rw [if_neg (by omega)]
  simp only
  rw [if_neg (by omega)]
  congr 1
  omega

/-- Out of range, `glyphForRune` indexes outside a list of 95 glyphs. -/
theorem glyphForRune_out_of_range (glyphs : Glyphs) (r : Int) (hcount : glyphs.length = 95)
    (hr : r < 32 ∨ 127 ≤ r) : glyphForRune glyphs r = none := by
  unfold glyphForRune startAscii printableCount
  rw [if_neg (by omega)]
  simp only
  by_cases hneg : r - (32 : Nat) < 0
  · rw [if_pos hneg]
  · rw [if_neg hneg, List.getElem?_eq_none_iff]
    omega

/-- With a glyph of 8 rows, the inner loop appends row `h` of the glyph to row `h`. -/
theorem writeGlyph_eq (R : Nat → GoString) (g : List GoString) (hg : g.length = 8) :
    writeGlyph ((List.range 8).map R) g =
      some ((List.range 8).map (fun h => R h ++ g.getD h [])) := by
  match g, hg with
  | [g0, g1, g2, g3, g4, g5, g6, g7], _ => rfl

/-- The outer loop of `renderLine` from any rows, on a line in range. -/
theorem renderLine_fold (glyphs : Glyphs) (hcount : glyphs.length = 95)
    (hrows : ∀ g ∈ glyphs, g.length = 8) (line : GoString)
    (hcodes : ∀ c ∈ line, 32 ≤ c ∧ c < 127) (R : Nat → GoString) :
    (line.map (fun (c : Nat) => (c : Int))).foldlM
        (fun rows r => (glyphForRune glyphs r).bind (fun g => writeGlyph rows g))
        ((List.range 8).map R) =
      some ((List.range 8).map (fun h => R h ++ composedRow glyphs line h)) := by
  induction line generalizing R with
  | nil => simp [composedRow]
  | cons c rest ih =>
    have hc := hcodes c (by simp)
    have hlt : c - 32 < glyphs.length := by omega
    have hget : glyphs[c - 32]? = some glyphs[c - 32] := List.getElem?_eq_getElem hlt
    have hlen : (glyphs[c - 32]).length = 8 := hrows _ (List.getElem_mem hlt)
    rw [List.map_cons, List.foldlM_cons, glyphForRune_in_range glyphs c hc.1, hget]
    simp only [Option.some_bind, Option.bind_eq_bind]
    rw [writeGlyph_eq R _ hlen, Option.some_bind, ih (fun x hx => hcodes x (by simp [hx]))]
    congr 1
    apply List.map_congr_left
    intro h _
    simp [composedRow, List.getD_eq_getElem?_getD, hget]

/-- On a line in range `renderLine` prints the 8 composed rows. -/
theorem renderLine_eq (glyphs : Glyphs) (hcount : glyphs.length = 95)
    (hrows : ∀ g ∈ glyphs, g.length = 8) (line : GoString)
    (hcodes : ∀ c ∈ line, 32 ≤ c ∧ c < 127) :
    renderLine glyphs line = some ((List.range 8).map (composedRow glyphs line)) := by
  unfold renderLine
  rw [rangeRunes_ascii line (fun c hc => by have := hcodes c hc; omega)]
  have hinit : List.replicate charHeight ([] : GoString) = (List.range 8).map (fun _ => []) := by
    decide
  rw [hinit, renderLine_fold glyphs hcount hrows line hcodes]
  simp

/-- C2: for a glyph list of 95 entries of 8 rows and a non-empty line whose
bytes all lie in [32, 127), `renderLine` prints exactly 8 rows, and for every
`h` below 8 row `h` is the concatenation, in character order, of row `h` of
`glyphs[c - 32]` over the bytes `c` of the line; for a line of one byte, row
`h` is row `h` of that byte's glyph. -/
theorem renderLine_rows (glyphs : Glyphs) (line : GoString)
    (hcount : glyphs.length = 95) (hrows : ∀ g ∈ glyphs, g.length = 8)
    (hne : line ≠ []) (hcodes : ∀ c ∈ line, 32 ≤ c ∧ c < 127) :
    ∃ rows, renderLine glyphs line = some rows ∧ rows.length = 8 ∧
      (∀ h, h < 8 →
        rows[h]? = some ((line.map (fun c => (glyphs.getD (c - 32) []).getD h [])).flatten)) ∧
      (∀ c, line = [c] → ∃ g, glyphs[c - 32]? = some g ∧ g.length = 8 ∧
        ∀ h, h < 8 → rows[h]? = g[h]?) := by
  have _ := hne
  refine ⟨_, renderLine_eq glyphs hcount hrows line hcodes, by simp, ?_, ?_⟩
  · intro h hh
    simp [hh, composedRow]
  · intro c hline
    have hc := hcodes c (by simp [hline])
    have hlt : c - 32 < glyphs.length := by omega
    refine ⟨glyphs[c - 32], List.getElem?_eq_getElem hlt, hrows _ (List.getElem_mem hlt), ?_⟩
    intro h hh
    have hlen : (glyphs[c - 32]).length = 8 := hrows _ (List.getElem_mem hlt)
    have hh2 : h < (glyphs[c - 32]).length := by omega
    simp [hh, composedRow, hline, List.getD_eq_getElem?_getD, List.getElem?_eq_getElem hlt,
      List.getElem?_eq_getElem hh2]

/-- Witness of C2 on `sampleGlyphs` and the line "Hi!". -/
theorem renderLine_rows_witness :
    ∃ rows, renderLine sampleGlyphs (str "Hi!") = some rows ∧ rows.length = 8 ∧
      (∀ h, h < 8 →
        rows[h]? =
          some (((str "Hi!").map (fun c => (sampleGlyphs.getD (c - 32) []).getD h [])).flatten)) ∧
      (∀ c, str "Hi!" = [c] → ∃ g, sampleGlyphs[c - 32]? = some g ∧ g.length = 8 ∧
        ∀ h, h < 8 → rows[h]? = g[h]?) :=
  renderLine_rows sampleGlyphs (str "Hi!") (by decide) (by decide) (by decide) (by decide)

/-- C3 (evaluation outside the range): on the 95 entry list `sampleGlyphs`,
`glyphForRune` at the rune 127 (DEL), at the rune 9 (tab) and at the rune 233
indexes outside the list and panics, where the claim asks for entry 0, the
fallback glyph, which the list does hold. -/
theorem glyphForRune_out_of_range_panics :
    sampleGlyphs.length = 95 ∧
      glyphForRune sampleGlyphs 127 = none ∧
      glyphForRune sampleGlyphs 9 = none ∧
      glyphForRune sampleGlyphs 233 = none ∧
      sampleGlyphs[0]? ≠ none ∧
      renderLine sampleGlyphs (str "a\tb") = none := by
  decide

/-- The scan of `strings.Split` on the newline, against `List.splitOn`. -/
theorem stringsSplitAux_eq_splitOn (s cur : GoString) :
    stringsSplitAux [10] 0 cur s = (List.splitOn 10 s).modifyHead (fun p => cur ++ p) := by
  induction s generalizing cur with
  | nil => simp [stringsSplitAux, List.splitOn, List.splitOnP_nil]
  | cons x t ih =>
    by_cases hx : x = 10
    · rw [hx, stringsSplitAux_newline, ih]
      simp only [List.splitOn, List.splitOnP_cons, beq_self_eq_true, if_true,
        List.modifyHead_cons, List.append_nil]
      congr 1
      cases List.splitOnP (fun y => y == 10) t with
      | nil => rfl
      | cons p ps => simp
    · rw [stringsSplitAux, if_neg, ih]
      · have hne : List.splitOnP (fun y => y == 10) t ≠ [] := List.splitOnP_ne_nil _ _
        simp only [List.splitOn, List.splitOnP_cons, beq_iff_eq, hx, if_false]
        cases hsp : List.splitOnP (fun y => y == 10) t with
        | nil => exact absurd hsp hne
        | cons p ps => simp
      · simp [List.isPrefixOf]
        exact fun hc => hx hc.symm

/-- On the newline, `strings.Split` is `List.splitOn`. -/
theorem stringsSplit_eq_splitOn (s : GoString) :
    stringsSplit s [10] = List.splitOn 10 s := by
  rw [stringsSplit, stringsSplitAux_eq_splitOn]
  cases h : List.splitOn 10 s with
  | nil => rfl
  | cons p ps => simp

/-- Every byte of a logical line is a byte of the input and is no newline. -/
theorem mem_splitOn_newline (s : GoString) :
    ∀ ln ∈ List.splitOn 10 s, ∀ c ∈ ln, c ∈ s ∧ c ≠ 10 := by
  induction s with
  | nil =>
    intro ln hln c hc
    simp [List.splitOn, List.splitOnP_nil] at hln
    rw [hln] at hc
    simp at hc
  | cons x t ih =>
    intro ln hln c hc
    by_cases hx : x = 10
    · simp only [List.splitOn, List.splitOnP_cons, beq_iff_eq, hx, if_true] at hln
      rcases List.mem_cons.mp hln with h | h
      · rw [h] at hc
        simp at hc
      · have := ih ln h c hc
        exact ⟨List.mem_cons_of_mem _ this.1, this.2⟩
    · simp only [List.splitOn, List.splitOnP_cons, beq_iff_eq, hx, if_false] at hln
      cases hsp : List.splitOnP (fun y => y == 10) t with
      | nil => rw [hsp] at hln; simp at hln
      | cons p ps =>
        have ih2 : ∀ ln ∈ p :: ps, ∀ c ∈ ln, c ∈ t ∧ c ≠ 10 := by
          intro l hl
          exact ih l (by simpa [List.splitOn, hsp] using hl)
        rw [hsp] at hln
        simp only [List.modifyHead_cons, List.mem_cons] at hln
        rcases hln with h | h
        · rw [h] at hc
          rcases List.mem_cons.mp hc with hcx | hcp
          · rw [hcx]
            exact ⟨by simp, hx⟩
          · have := ih2 p (by simp) c hcp
            exact ⟨List.mem_cons_of_mem _ this.1, this.2⟩
        · have := ih2 ln (by simp [h]) c hc
          exact ⟨List.mem_cons_of_mem _ this.1, this.2⟩

/-- The loop over the logical lines, from any output so far. -/
theorem renderLoop_fold (glyphs : Glyphs) (lines : List GoString)
    (hlines : ∀ ln ∈ lines, ln ≠ [] →
      renderLine glyphs ln = some ((List.range 8).map (composedRow glyphs ln)))
    (out : List GoString) :
    lines.foldlM
        (fun out ln =>
          if ln = [] then some (out ++ [[]])
          else (renderLine glyphs ln).map (fun rows => out ++ rows ++ [[], []]))
        out =
      some (out ++ (lines.map (lineUnit glyphs)).flatten) := by
  induction lines generalizing out with
  | nil => simp
  | cons ln rest ih =>
    have hrest : ∀ l ∈ rest, l ≠ [] →
        renderLine glyphs l = some ((List.range 8).map (composedRow glyphs l)) :=
      fun l hl => hlines l (by simp [hl])
    rw [List.foldlM_cons]
    by_cases hln : ln = []
    · rw [if_pos hln]
      simp only [Option.bind_eq_bind, Option.some_bind]
      rw [ih hrest]
      simp [lineUnit, hln]
    · rw [if_neg hln, hlines ln (by simp) hln, Option.map_some']
      simp only [Option.bind_eq_bind, Option.some_bind]
      rw [ih hrest]
      simp [lineUnit, hln]

/-- The length of the concatenated units. -/
theorem length_units (glyphs : Glyphs) (lines : List GoString) :
    ((lines.map (lineUnit glyphs)).flatten).length =
      10 * lines.countP (fun ln => decide (ln ≠ [])) + lines.countP (fun ln => decide (ln = [])) := by
  induction lines with
  | nil => rfl
  | cons ln rest ih =>
    by_cases hln : ln = []
    · simp [lineUnit, hln, ih, List.countP_cons]
      omega
    · simp [lineUnit, hln, ih, List.countP_cons]
      omega

/-- C4: for a glyph list of 95 entries of 8 rows and a non-empty sanitized
string whose bytes other than the newline all lie in [32, 127), the render
loop of `main` prints the concatenation, in the order of the logical lines
(the split on the newline), of one unit per logical line: one empty line for
an empty logical line, and for a non-empty one the 8 rows of `renderLine`
followed by two empty lines.  The number of printed lines is 10 times the
number of non-empty logical lines plus the number of empty ones. -/
theorem renderInput_units (glyphs : Glyphs) (input : GoString)
    (hcount : glyphs.length = 95) (hrows : ∀ g ∈ glyphs, g.length = 8)
    (hne : input ≠ []) (hcodes : ∀ c ∈ input, c ≠ 10 → 32 ≤ c ∧ c < 127) :
    ∃ out, renderInput glyphs input = some out ∧
      out = ((List.splitOn 10 input).map (fun ln =>
        if ln = [] then [[]] else (renderLine glyphs ln).getD [] ++ [[], []])).flatten ∧
      (∀ ln ∈ List.splitOn 10 input, ln ≠ [] →
        ∃ rows, renderLine glyphs ln = some rows ∧ rows.length = 8) ∧
      out.length =
        10 * (List.splitOn 10 input).countP (fun ln => decide (ln ≠ [])) +
          (List.splitOn 10 input).countP (fun ln => decide (ln = [])) := by
  have hline : ∀ ln ∈ List.splitOn 10 input, ln ≠ [] →
      renderLine glyphs ln = some ((List.range 8).map (composedRow glyphs ln)) := by
    intro ln hln _
    apply renderLine_eq glyphs hcount hrows
    intro c hc
    have hmem := mem_splitOn_newline input ln hln c hc
    exact hcodes c hmem.1 hmem.2
  refine ⟨((List.splitOn 10 input).map (lineUnit glyphs)).flatten, ?_, ?_, ?_, ?_⟩
  · unfold renderInput
    rw [if_neg hne, stringsSplit_eq_splitOn, renderLoop_fold glyphs _ hline, List.nil_append]
  · congr 1
    apply List.map_congr_left
    intro ln hln
    by_cases he : ln = []
    · simp [lineUnit, he]
    · simp [lineUnit, he, hline ln hln he]
  · intro ln hln he
    exact ⟨_, hline ln hln he, by simp⟩
  · exact length_units glyphs _

/-- Witness of C4 on `sampleGlyphs` and the three logical lines "ab", "", "c":
21 printed lines. -/
theorem renderInput_units_witness :
    ∃ out, renderInput sampleGlyphs (str "ab\n\nc") = some out ∧ out.length = 21 := by
  obtain ⟨out, hout, _, _, hlen⟩ := renderInput_units sampleGlyphs (str "ab\n\nc")
    (by decide) (by decide) (by decide) (by decide)
  refine ⟨out, hout, ?_⟩
  rw [hlen]
  decide

/-! ## The parsing loop of loadBanner: leading empty lines and the three outcomes -/

/-- At an empty line the loop body moves to the next line. -/
theorem loopBody_blank (lines : List GoString) (st : LoopState)
    (h : lines.getD st.i [] = []) :
    loopBody lines st = BodyResult.next { st with i := st.i + 1 } := by
  unfold loopBody
  rw [if_pos h]

/-- At a non-empty line with fewer than `charHeight` lines left the loop body fails. -/
theorem loopBody_short (lines : List GoString) (st : LoopState)
    (hne : lines.getD st.i [] ≠ []) (hshort : st.i + charHeight > lines.length) :
    loopBody lines st = BodyResult.fail BannerError.unexpectedEnd := by
  unfold loopBody
  rw [if_neg hne, if_pos hshort]

/-- The loop never changes `glyphs`. -/
theorem parseLoop_glyphs (lines : List GoString) (fuel : Nat) (st st1 : LoopState)
    (h : parseLoop lines fuel st = some (Except.ok st1)) : st1.glyphs = st.glyphs := by
  induction fuel generalizing st with
  | zero => simp [parseLoop] at h
  | succ n ih =>
    unfold parseLoop at h
    by_cases hg : st.glyphs.length < printableCount ∧ st.i < lines.length
    · rw [if_pos hg] at h
      by_cases h1 : lines.getD st.i [] = []
      · rw [loopBody_blank lines st h1] at h
        exact ih { st with i := st.i + 1 } h
      · by_cases h2 : st.i + charHeight > lines.length
        · rw [loopBody_short lines st h1 h2] at h
          simp at h
        · rw [loopBody_fixed lines st h1 (by omega)] at h
          exact ih st h
    · rw [if_neg hg] at h
      simp only [Option.some.injEq, Except.ok.injEq] at h
      rw [← h]

/-- No fuel and no font source make `loadBanner` return a glyph list. -/
theorem loadBanner_never_ok (fuel : Nat) (lines : List GoString) (g : Glyphs) :
    loadBanner fuel lines ≠ some (Except.ok g) := by
  intro h
  unfold loadBanner at h
  cases hp : parseLoop lines fuel { i := 0, glyphs := [] } with
  | none => rw [hp] at h; simp at h
  | some r =>
    cases r with
    | error e => rw [hp] at h; simp at h
    | ok st =>
      have hg : st.glyphs = [] := parseLoop_glyphs lines fuel _ st hp
      rw [hp] at h
      simp [hg, printableCount] at h

/-- Empty lines are passed one per iteration. -/
theorem parseLoop_skip_blank (lines : List GoString) (g : Glyphs) (hg : g.length < printableCount)
    (k : Nat) : ∀ (fuel i : Nat), i + k ≤ lines.length →
      (∀ j, i ≤ j → j < i + k → lines.getD j [] = []) →
      parseLoop lines (fuel + k) { i := i, glyphs := g } =
        parseLoop lines fuel { i := i + k, glyphs := g } := by
  induction k with
  | zero => intro fuel i _ _; rfl
  | succ k ih =>
    intro fuel i hlen hblank
    have hi : i < lines.length := by omega
    have hline : lines.getD i [] = [] := hblank i (Nat.le_refl i) (by omega)
    have hstep : parseLoop lines (fuel + k + 1) { i := i, glyphs := g } =
        parseLoop lines (fuel + k) { i := i + 1, glyphs := g } := by
      rw [parseLoop, if_pos ⟨hg, hi⟩, loopBody_blank lines _ hline]
    rw [← Nat.add_assoc, hstep, ih fuel (i + 1) (by omega) (fun j h1 h2 => hblank j (by omega) (by omega))]
    congr 2
    omega

/-- The loop body on a source with lines put in front, at the moved position. -/
theorem loopBody_append (pre L : List GoString) (st : LoopState) :
    loopBody (pre ++ L) { st with i := pre.length + st.i } =
      match loopBody L st with
      | BodyResult.next st1 => BodyResult.next { st1 with i := pre.length + st1.i }
      | BodyResult.fail e => BodyResult.fail e := by
  have hget : (pre ++ L).getD (pre.length + st.i) [] = L.getD st.i [] := by
    simp [List.getD_eq_getElem?_getD, List.getElem?_append_right]
  by_cases h1 : L.getD st.i [] = []
  · rw [loopBody_blank L st h1, loopBody_blank (pre ++ L) _ (by rw [hget]; exact h1)]
    rfl
  · by_cases h2 : st.i + charHeight > L.length
    · rw [loopBody_short L st h1 h2, loopBody_short (pre ++ L) _ (by rw [hget]; exact h1)
        (by simp only [List.length_append]; omega)]
    · rw [loopBody_fixed L st h1 (by omega), loopBody_fixed (pre ++ L) _ (by rw [hget]; exact h1)
        (by simp only [List.length_append]; omega)]

/-- The loop on a source with lines put in front, from the moved position. -/
theorem parseLoop_append (pre L : List GoString) (fuel : Nat) (st : LoopState) :
    parseLoop (pre ++ L) fuel { st with i := pre.length + st.i } =
      (parseLoop L fuel st).map (shiftResult pre.length) := by
  induction fuel generalizing st with
  | zero => rfl
  | succ n ih =>
    rw [parseLoop, parseLoop]
    by_cases hg : st.glyphs.length < printableCount ∧ st.i < L.length
    · have hg2 : st.glyphs.length < printableCount ∧ pre.length + st.i < (pre ++ L).length := by
        rw [List.length_append]
        exact ⟨hg.1, by omega⟩
      rw [if_pos hg, if_pos hg2, loopBody_append]
      cases hb : loopBody L st with
      | next st1 => exact ih st1
      | fail e => rfl
    · have hg2 : ¬ (st.glyphs.length < printableCount ∧ pre.length + st.i < (pre ++ L).length) := by
        rw [List.length_append]
        intro hc
        exact hg ⟨hc.1, by omega⟩
      rw [if_neg hg, if_neg hg2]
      rfl

/-- Leading empty lines cost one iteration each and change nothing else. -/
theorem loadBanner_skip_blank (L : List GoString) (n fuel : Nat) :
    loadBanner (fuel + n) (List.replicate n [] ++ L) = loadBanner fuel L := by
  have hskip := parseLoop_skip_blank (List.replicate n [] ++ L) [] (by decide) n fuel 0
    (by simp) (by
      intro j _ hj
      have hjn : j < n := by omega
      rw [List.getD_eq_getElem?_getD, List.getElem?_append_left (by simpa using hjn)]
      simp [List.getElem?_replicate, hjn])
  have happ := parseLoop_append (List.replicate n []) L fuel { i := 0, glyphs := [] }
  simp only [List.length_replicate, Nat.add_zero, Nat.zero_add] at happ hskip
  unfold loadBanner
  rw [hskip, happ]
  cases parseLoop L fuel { i := 0, glyphs := [] } with
  | none => rfl
  | some r =>
    cases r with
    | ok st => rfl
    | error e => rfl

/-- With less fuel than leading empty lines the loop is still running. -/
theorem loadBanner_blank_out_of_fuel (L : List GoString) (n fuel : Nat) (h : fuel < n) :
    loadBanner fuel (List.replicate n [] ++ L) = none := by
  have hskip := parseLoop_skip_blank (List.replicate n [] ++ L) [] (by decide) fuel 0 0
    (by simp; omega) (by
      intro j _ hj
      have hjn : j < n := by omega
      rw [List.getD_eq_getElem?_getD, List.getElem?_append_left (by simpa using hjn)]
      simp [List.getElem?_replicate, hjn])
  simp only [Nat.zero_add] at hskip
  unfold loadBanner
  rw [hskip]
  rfl

/-- The leading empty lines are at most all lines. -/
theorem leadingBlank_le (lines : List GoString) : leadingBlank lines ≤ lines.length := by
  unfold leadingBlank
  exact (List.takeWhile_sublist _).length_le

/-- A font source is its leading empty lines followed by a rest that is empty
or starts with a non-empty line. -/
theorem leadingBlank_split (lines : List GoString) :
    ∃ rest, lines = List.replicate (leadingBlank lines) [] ++ rest ∧
      (rest = [] ∨ ∃ x t, rest = x :: t ∧ x ≠ []) := by
  induction lines with
  | nil => exact ⟨[], rfl, Or.inl rfl⟩
  | cons l t ih =>
    by_cases hl : l = []
    · obtain ⟨rest, hrest, hcase⟩ := ih
      refine ⟨rest, ?_, hcase⟩
      have hk : leadingBlank (l :: t) = leadingBlank t + 1 := by
        simp [leadingBlank, List.takeWhile_cons, hl]
      rw [hk, List.replicate_succ, List.cons_append, ← hrest, hl]
    · refine ⟨l :: t, ?_, Or.inr ⟨l, t, rfl, hl⟩⟩
      have hk : leadingBlank (l :: t) = 0 := by
        simp [leadingBlank, List.takeWhile_cons, hl]
      rw [hk]
      rfl

/-- Before the first non-empty line every line is empty. -/
theorem getD_lt_leadingBlank (lines : List GoString) (j : Nat) (h : j < leadingBlank lines) :
    lines.getD j [] = [] := by
  obtain ⟨rest, hrest, _⟩ := leadingBlank_split lines
  rw [hrest, List.getD_eq_getElem?_getD, List.getElem?_append_left (by simpa using h)]
  simp [List.getElem?_replicate, h]

/-- The line at the position `leadingBlank`, when there is one, is not empty. -/
theorem getD_leadingBlank_ne (lines : List GoString) (h : leadingBlank lines < lines.length) :
    lines.getD (leadingBlank lines) [] ≠ [] := by
  obtain ⟨rest, hrest, hcase⟩ := leadingBlank_split lines
  generalize leadingBlank lines = k at hrest h ⊢
  subst hrest
  rcases hcase with hnil | ⟨x, t, hx, hne⟩
  · rw [hnil] at h
    simp at h
  · rw [List.getD_eq_getElem?_getD, List.getElem?_append_right (by simp)]
    simp [hx, hne]

/-- The loop from the start reaches the first non-empty line after one
iteration per leading empty line. -/
theorem parseLoop_to_leadingBlank (lines : List GoString) (fuel : Nat) :
    parseLoop lines (fuel + leadingBlank lines) { i := 0, glyphs := [] } =
      parseLoop lines fuel { i := leadingBlank lines, glyphs := [] } := by
  have h := parseLoop_skip_blank lines [] (by decide) (leadingBlank lines) fuel 0
    (by simpa using leadingBlank_le lines)
    (fun j _ hj => getD_lt_leadingBlank lines j (by omega))
  simpa using h

/-- C14 (evaluation at a well-formed font with surplus lines): on `sampleFont`
and on `sampleFont` followed by any lines `X` the parsing loop of `loadBanner`
returns nothing for any amount of fuel, where the claim asks for the same
successful glyph list on both. -/
theorem loadBanner_surplus_never_returns (X : List GoString) (fuel : Nat) :
    loadBanner fuel sampleFont = none ∧ loadBanner fuel (sampleFont ++ X) = none ∧
      loadBanner fuel (sampleFont ++ [str "surplus"]) = none := by
  have hlen : sampleFont.length = 854 := by decide!
  have hhead : ∀ Y : List GoString, (sampleFont ++ Y).getD 0 [] = [32] := by
    intro Y
    have h0 : sampleFont = [32] :: sampleFont.tail := by decide!
    rw [h0]
    rfl
  have hstuck : ∀ Y : List GoString, loadBanner fuel (sampleFont ++ Y) = none := by
    intro Y
    refine loadBanner_stuck (sampleFont ++ Y) ?_ ?_ fuel
    · rw [hhead]; decide
    · rw [List.length_append, hlen]
      have : charHeight = 8 := rfl
      omega
  refine ⟨?_, hstuck X, hstuck _⟩
  have := hstuck []
  rwa [List.append_nil] at this

/-- Leading empty lines and fuel: on `n` empty lines followed by `L` the loop
needs `n` more iterations and then behaves as on `L` alone, so a value is
returned on the one exactly when it is returned on the other, and there is no
return on the one exactly when there is none on the other.  This says nothing
on whether a value is returned at all. -/
theorem loadBanner_leading_blank_lines (L : List GoString) (n : Nat) :
    (∀ fuel, loadBanner (fuel + n) (List.replicate n [] ++ L) = loadBanner fuel L) ∧
      (∀ r, (∃ fuel, loadBanner fuel (List.replicate n [] ++ L) = some r) ↔
        (∃ fuel, loadBanner fuel L = some r)) ∧
      ((∀ fuel, loadBanner fuel (List.replicate n [] ++ L) = none) ↔
        (∀ fuel, loadBanner fuel L = none)) := by
  have hcase : ∀ fuel, loadBanner fuel (List.replicate n [] ++ L) = none ∨
      ∃ f, fuel = f + n ∧ loadBanner fuel (List.replicate n [] ++ L) = loadBanner f L := by
    intro fuel
    by_cases hf : fuel < n
    · exact Or.inl (loadBanner_blank_out_of_fuel L n fuel hf)
    · refine Or.inr ⟨fuel - n, by omega, ?_⟩
      have := loadBanner_skip_blank L n (fuel - n)
      rwa [Nat.sub_add_cancel (by omega)] at this
  refine ⟨loadBanner_skip_blank L n, fun r => ⟨?_, ?_⟩, ⟨?_, ?_⟩⟩
  · rintro ⟨fuel, hfuel⟩
    rcases hcase fuel with hnone | ⟨f, _, heq⟩
    · rw [hnone] at hfuel
      exact absurd hfuel (by simp)
    · exact ⟨f, by rw [← heq, hfuel]⟩
  · rintro ⟨fuel, hfuel⟩
    exact ⟨fuel + n, by rw [loadBanner_skip_blank, hfuel]⟩
  · intro hall fuel
    rw [← loadBanner_skip_blank L n fuel]
    exact hall _
  · intro hall fuel
    rcases hcase fuel with hnone | ⟨f, _, heq⟩
    · exact hnone
    · rw [heq]
      exact hall f

/-- C15 (evaluation at a well-formed font behind empty lines): on `sampleFont`
and on any number `n` of empty lines followed by `sampleFont`, in particular
two, the parsing loop of `loadBanner` returns nothing for any amount of fuel,
where the claim asks for the same glyph list on both. -/
theorem loadBanner_blank_sampleFont_never_returns (n fuel : Nat) :
    loadBanner fuel sampleFont = none ∧
      loadBanner fuel (List.replicate n [] ++ sampleFont) = none ∧
      loadBanner fuel ([] :: [] :: sampleFont) = none := by
  have hlen : sampleFont.length = 854 := by decide!
  have hhead : sampleFont.getD 0 [] = [32] := by decide!
  have hfont : ∀ f, loadBanner f sampleFont = none := by
    refine loadBanner_stuck sampleFont ?_ ?_
    · rw [hhead]; decide
    · rw [hlen]; decide
  have hblank : ∀ k f, loadBanner f (List.replicate k [] ++ sampleFont) = none := by
    intro k f
    by_cases hf : f < k
    · exact loadBanner_blank_out_of_fuel sampleFont k f hf
    · have h := loadBanner_skip_blank sampleFont k (f - k)
      rw [Nat.sub_add_cancel (by omega)] at h
      rw [h]
      exact hfont _
  exact ⟨hfont fuel, hblank n fuel, hblank 2 fuel⟩

/-- C16: for every sequence of font-source lines the parsing loop of
`loadBanner` never returns a glyph list.  From any state with no glyph and a
line position not past the first non-empty line, an iteration fails or leads
to such a state again.  When every line is empty the result is the error that
reports 0 found glyphs; when fewer than 8 lines remain from the first
non-empty line it is the unexpected-end error; when 8 or more remain, the
iteration at the first non-empty line gives back its own state and the loop
does not return for any fuel. -/
theorem loadBanner_outcomes (lines : List GoString) :
    (∀ fuel g, loadBanner fuel lines ≠ some (Except.ok g)) ∧
      (∀ st : LoopState, st.glyphs = [] → st.i ≤ leadingBlank lines → st.i < lines.length →
        loopBody lines st = BodyResult.fail BannerError.unexpectedEnd ∨
          ∃ st1, loopBody lines st = BodyResult.next st1 ∧ st1.glyphs = [] ∧
            st.i ≤ st1.i ∧ st1.i ≤ leadingBlank lines) ∧
      (leadingBlank lines = lines.length → ∀ fuel, lines.length < fuel →
        loadBanner fuel lines = some (Except.error (BannerError.foundFewer 0))) ∧
      (leadingBlank lines < lines.length → lines.length < leadingBlank lines + 8 →
        ∀ fuel, leadingBlank lines < fuel →
          loadBanner fuel lines = some (Except.error BannerError.unexpectedEnd)) ∧
      (leadingBlank lines + 8 ≤ lines.length →
        loopBody lines { i := leadingBlank lines, glyphs := [] } =
            BodyResult.next { i := leadingBlank lines, glyphs := [] } ∧
          ∀ fuel, loadBanner fuel lines = none) := by
  have h8 : charHeight = 8 := rfl
  refine ⟨fun fuel g => loadBanner_never_ok fuel lines g, ?_, ?_, ?_, ?_⟩
  · intro st hg hi hlt
    by_cases hk : st.i < leadingBlank lines
    · refine Or.inr ⟨{ st with i := st.i + 1 }, ?_, hg, by simp, hk⟩
      exact loopBody_blank lines st (getD_lt_leadingBlank lines st.i hk)
    · have hik : st.i = leadingBlank lines := by omega
      have hne : lines.getD st.i [] ≠ [] := by
        rw [hik]
        exact getD_leadingBlank_ne lines (by omega)
      by_cases hroom : st.i + charHeight ≤ lines.length
      · exact Or.inr ⟨st, loopBody_fixed lines st hne hroom, hg, Nat.le_refl _, hi⟩
      · exact Or.inl (loopBody_short lines st hne (by omega))
  · intro hall fuel hfuel
    obtain ⟨f, hf⟩ : ∃ f, fuel = (f + 1) + leadingBlank lines := ⟨fuel - 1 - lines.length, by omega⟩
    unfold loadBanner
    rw [hf, parseLoop_to_leadingBlank, parseLoop, if_neg (by simp only; omega)]
    rfl
  · intro hlt hshort fuel hfuel
    obtain ⟨f, hf⟩ : ∃ f, fuel = (f + 1) + leadingBlank lines :=
      ⟨fuel - 1 - leadingBlank lines, by omega⟩
    unfold loadBanner
    rw [hf, parseLoop_to_leadingBlank, parseLoop, if_pos ⟨(by decide : ([] : Glyphs).length < printableCount), hlt⟩,
      loopBody_short lines _ (getD_leadingBlank_ne lines hlt) (by simp only; omega)]
  · intro hroom
    have hlt : leadingBlank lines < lines.length := by omega
    have hne := getD_leadingBlank_ne lines hlt
    refine ⟨loopBody_fixed lines _ hne (by simp only; omega), fun fuel => ?_⟩
    obtain ⟨rest, hrest, _⟩ := leadingBlank_split lines
    by_cases hf : fuel < leadingBlank lines
    · rw [hrest]
      exact loadBanner_blank_out_of_fuel rest _ fuel hf
    · obtain ⟨f, hf2⟩ : ∃ f, fuel = f + leadingBlank lines := ⟨fuel - leadingBlank lines, by omega⟩
      unfold loadBanner
      rw [hf2, parseLoop_to_leadingBlank,
        parseLoop_stuck lines { i := leadingBlank lines, glyphs := [] }
          (by decide : ([] : Glyphs).length < printableCount) hne (by simp only; omega) f]

/-- Witness of C16 on three font sources: two empty lines; two empty lines and
one non-empty line; one empty line and 8 non-empty lines. -/
theorem loadBanner_outcomes_witness :
    loadBanner 3 [[], []] = some (Except.error (BannerError.foundFewer 0)) ∧
      loadBanner 3 [[], [], [35]] = some (Except.error BannerError.unexpectedEnd) ∧
      ∀ fuel, loadBanner fuel ([] :: oneBlockFont) = none :=
  ⟨(loadBanner_outcomes [[], []]).2.2.1 (by decide) 3 (by decide),
    (loadBanner_outcomes [[], [], [35]]).2.2.2.1 (by decide) (by decide) 3 (by decide),
    ((loadBanner_outcomes ([] :: oneBlockFont)).2.2.2.2 (by decide)).2⟩

/-! ## sanitizeInput: no escape sequence is left -/

/-- The result of unescaping starts with `n` only when the input does. -/
theorem head_unescapeNewlines (s t : GoString) (h : unescapeNewlines s = 110 :: t) :
    ∃ r, s = 110 :: r := by
  induction s using unescapeNewlines.induct with
  | case1 rest _ =>
    rw [unescapeNewlines] at h
    simp at h
  | case2 b rest hnot _ =>
    rw [unescapeNewlines] at h
    · simp only [List.cons.injEq] at h
      exact ⟨rest, by rw [h.1]⟩
    · exact hnot
  | case3 =>
    rw [unescapeNewlines] at h
    simp at h

/-- Unescaping leaves no sequence backslash, `n`. -/
theorem unescapeNewlines_no_escape (s : GoString) : ¬ [92, 110] <:+: unescapeNewlines s := by
  induction s using unescapeNewlines.induct with
  | case1 rest ih =>
    rw [unescapeNewlines, List.infix_cons_iff]
    rintro (hp | hi)
    · have := (List.cons_prefix_cons.mp hp).1
      omega
    · exact ih hi
  | case2 b rest hnot ih =>
    rw [unescapeNewlines]
    · rw [List.infix_cons_iff]
      rintro (hp | hi)
      · obtain ⟨hb, hrest⟩ := List.cons_prefix_cons.mp hp
        obtain ⟨t, ht⟩ := hrest
        obtain ⟨r, hr⟩ := head_unescapeNewlines rest t (by rw [← ht]; rfl)
        exact hnot r hb.symm hr
      · exact ih hi
    · exact hnot
  | case3 =>
    rw [unescapeNewlines]
    simp

/-- C17: for every token list the string returned by `sanitizeInput` holds no
sequence backslash, `n`: the replacement leaves none behind and makes no new one. -/
theorem sanitizeInput_no_escape (tokens : List GoString) :
    ¬ [92, 110] <:+: sanitizeInput tokens := by
  rw [sanitizeInput_eq]
  exact unescapeNewlines_no_escape _

/-- C13: for every token list `x`, if `sanitizeInput x` is not wrapped then
sanitizing it again as a single token changes nothing. -/
theorem sanitizeInput_idempotent (x : List GoString) (h : ¬ isWrapped (sanitizeInput x)) :
    sanitizeInput [sanitizeInput x] = sanitizeInput x := by
  have hj : [32].intercalate [sanitizeInput x] = sanitizeInput x := by
    simp [List.intercalate]
  have hno : ¬ [92, 110] <:+: sanitizeInput x := by
    rw [sanitizeInput_eq]
    exact unescapeNewlines_no_escape _
  rw [sanitizeInput_eq [sanitizeInput x], hj, if_neg h]
  exact unescapeNewlines_of_no_escape _ hno

/-- Witness of C13 at the token "a", backslash, `n`, "b" in braces, whose
sanitized form "a", newline, "b" is not wrapped. -/
theorem sanitizeInput_idempotent_witness :
    sanitizeInput [str "\x7ba\\nb\x7d"] = str "a\nb" ∧
      sanitizeInput [sanitizeInput [str "\x7ba\\nb\x7d"]] = sanitizeInput [str "\x7ba\\nb\x7d"] :=
  ⟨by decide, sanitizeInput_idempotent [str "\x7ba\\nb\x7d"] (by decide)⟩

/-! ## Rendering: the empty input and concatenation -/

/-- C12: when the sanitized input is empty the rendering step of `main` prints
no line at all, for every glyph list, although splitting the empty string on
the newline gives one empty logical line; so it is for no token and for the
token of an empty pair of braces. -/
theorem renderInput_empty (glyphs : Glyphs) :
    renderInput glyphs [] = some [] ∧
      stringsSplit [] [10] = [[]] ∧
      (∀ args, sanitizeInput args = [] → mainOutput glyphs args = some []) ∧
      mainOutput glyphs [] = some [] ∧
      mainOutput glyphs [str "\x7b\x7d"] = some [] := by
  have hmain : ∀ args, sanitizeInput args = [] → mainOutput glyphs args = some [] := by
    intro args hargs
    rw [mainOutput, hargs]
    rfl
  exact ⟨rfl, rfl, hmain, hmain _ (by decide), hmain _ (by decide)⟩

/-- The composed row of a concatenation is the concatenation of the composed rows. -/
theorem composedRow_append (glyphs : Glyphs) (a b : GoString) (h : Nat) :
    composedRow glyphs (a ++ b) h = composedRow glyphs a h ++ composedRow glyphs b h := by
  simp [composedRow]

/-- C18: for a glyph list of 95 entries of 8 rows and strings `a`, `b` whose
bytes all lie in [32, 127), `renderLine` prints for `a ++ b` rows that are, for
every `h` below 8, row `h` printed for `a` followed by row `h` printed for `b`,
and the length of row `h` is the sum of the lengths of row `h` of the glyphs used. -/
theorem renderLine_append (glyphs : Glyphs) (a b : GoString)
    (hcount : glyphs.length = 95) (hrows : ∀ g ∈ glyphs, g.length = 8)
    (ha : ∀ c ∈ a, 32 ≤ c ∧ c < 127) (hb : ∀ c ∈ b, 32 ≤ c ∧ c < 127) :
    ∃ ra rb rab, renderLine glyphs a = some ra ∧ renderLine glyphs b = some rb ∧
      renderLine glyphs (a ++ b) = some rab ∧
      ra.length = 8 ∧ rb.length = 8 ∧ rab.length = 8 ∧
      ∀ h, h < 8 →
        rab[h]? = some (ra.getD h [] ++ rb.getD h []) ∧
          (rab.getD h []).length =
            ((a ++ b).map (fun c => ((glyphs.getD (c - 32) []).getD h []).length)).sum := by
  have hab : ∀ c ∈ a ++ b, 32 ≤ c ∧ c < 127 := by
    intro c hc
    rcases List.mem_append.mp hc with h | h
    · exact ha c h
    · exact hb c h
  refine ⟨_, _, _, renderLine_eq glyphs hcount hrows a ha, renderLine_eq glyphs hcount hrows b hb,
    renderLine_eq glyphs hcount hrows (a ++ b) hab, by simp, by simp, by simp, ?_⟩
  intro h hh
  have hget : ∀ l : GoString,
      ((List.range 8).map (composedRow glyphs l)).getD h [] = composedRow glyphs l h := by
    intro l
    simp [List.getD_eq_getElem?_getD, hh]
  refine ⟨?_, ?_⟩
  · rw [hget a, hget b, ← composedRow_append]
    simp [hh]
  · rw [hget (a ++ b)]
    simp [composedRow, List.length_flatten, Function.comp_def]

/-- Witness of C18 on `sampleGlyphs` and the strings "Hi" and "!". -/
theorem renderLine_append_witness :
    ∃ ra rb rab, renderLine sampleGlyphs (str "Hi") = some ra ∧
      renderLine sampleGlyphs (str "!") = some rb ∧
      renderLine sampleGlyphs (str "Hi" ++ str "!") = some rab ∧
      ra.length = 8 ∧ rb.length = 8 ∧ rab.length = 8 ∧
      ∀ h, h < 8 →
        rab[h]? = some (ra.getD h [] ++ rb.getD h []) ∧
          (rab.getD h []).length =
            ((str "Hi" ++ str "!").map
              (fun c => ((sampleGlyphs.getD (c - 32) []).getD h []).length)).sum :=
  renderLine_append sampleGlyphs (str "Hi") (str "!") (by decide) (by decide) (by decide)
    (by decide)

end AsciiArt
